import Mathlib

set_option maxRecDepth 10000

/-!
Verification development for the PBR texture transcoder of the JE2BE
resource-pack converter (`src/converters/pbr_converter.py`).

Modelling conventions, chosen once for the whole file:

* An 8-bit channel value is a natural number (intended range `0..255`).
  `astype(np.uint8)` applied to a nonnegative float is modelled as
  truncation (`Nat.floor`) followed by reduction mod 256 (`uint8cast`).
* A raster image is a row-major list of pixels; the numpy code operates
  pixelwise on whole arrays, so per-pixel functions mapped over such a
  list capture the array arithmetic exactly.
* IEEE-754 `float64` arithmetic is modelled by exact rational and real
  arithmetic; `np.sqrt` becomes `Real.sqrt`.  A computable `Nat.sqrt`
  form of the normal-map Z channel is used as the executable definition
  and is proved equal to the direct floor-of-real-square-root expression
  in `normal_z_eq_floor`.
* `PIL.Image.open` failure (a corrupt or undecodable file) is modelled by
  an `Option` input: `none` stands for an image whose decoding raises;
  the `try/except` wrapper of each converter method then yields `false`
  and bumps the `errors` counter, exactly as the `except` branch does.
* A Python string is modelled as a `List Char`; a Python dict (insertion
  ordered) as an association list updated in place.
-/

namespace JE2BE

/-- One RGBA pixel of a decoded 4-channel image (`np.array` of an `RGBA`
PIL image): channels red, green, blue, alpha. -/
structure Pix4 where
  red : ℕ
  green : ℕ
  blue : ℕ
  alpha : ℕ
deriving DecidableEq, Repr

/-- One RGB pixel of an emitted 3-channel image. -/
structure Pix3 where
  red : ℕ
  green : ℕ
  blue : ℕ
deriving DecidableEq, Repr

/-- A decoded 4-channel image, row-major. -/
abbrev Image4 := List Pix4

/-- An emitted 3-channel image, row-major. -/
abbrev Image3 := List Pix3

/-- `astype(np.uint8)` on a nonnegative integral value: wrap mod 256. -/
def uint8cast (n : ℕ) : ℕ := n % 256

/-! ### Specular → MER per-pixel arithmetic (`convert_specular_to_mer`) -/

/-- `smoothness_normalized = smoothness / 255.0` (line 128). -/
def smoothness_normalized (smoothness : ℕ) : ℚ := (smoothness : ℚ) / 255

/-- `roughness_linear = (1.0 - smoothness_normalized) ** 2` (line 129). -/
def roughness_linear (smoothness : ℕ) : ℚ := (1 - smoothness_normalized smoothness) ^ 2

/-- `roughness_bedrock = (roughness_linear * 255).astype(np.uint8)` (line 130):
the float value is truncated by the uint8 cast. -/
def roughness_bedrock (smoothness : ℕ) : ℕ := uint8cast ⌊roughness_linear smoothness * 255⌋₊

/-- Metalness channel (lines 133-140): start from zeros, set 255 where the
green channel is `≥ 230` (metal-ID range), and copy the green value where
it is `< 230` and `> 10` (the `metallic_threshold`). -/
def metalness (f0_metal : ℕ) : ℕ :=
  if 230 ≤ f0_metal then 255
  else if 10 < f0_metal then f0_metal
  else 0

/-- Emissive channel (lines 144-146): zeros, overwritten by the alpha value
wherever alpha `< 255`. -/
def emission_bedrock (emission : ℕ) : ℕ :=
  if emission < 255 then emission else 0

/-- One output pixel of the MER map (lines 128-147): red = metalness of the
input green channel, green = emissive of the input alpha channel, blue =
roughness of the input red channel. -/
def merPixel (p : Pix4) : Pix3 :=
  { red := metalness p.green
    green := emission_bedrock p.alpha
    blue := roughness_bedrock p.red }

/-- The whole-image specular → MER pixel transform (`mer_array`). -/
def specToMer (img : Image4) : Image3 := img.map merPixel

/-! ### Normal-map per-pixel arithmetic (`convert_normal_map`) -/

/-- `(channel / 255.0) * 2.0 - 1.0` (lines 184-185). -/
def nx_normalized (v : ℕ) : ℚ := ((v : ℚ) / 255) * 2 - 1

/-- `nz_squared = np.maximum(0.0, 1.0 - (nx**2 + ny**2))` (lines 187-188). -/
def nz_squared (x y : ℕ) : ℚ :=
  max 0 (1 - (nx_normalized x ^ 2 + nx_normalized y ^ 2))

/-- Numerator of `nz_squared` over the common denominator `255² = 65025`,
with the clamp at zero performed by `Int.toNat`. -/
def nz_squared_num (x y : ℕ) : ℕ :=
  ((65025 : ℤ) - ((2 * (x : ℤ) - 255) ^ 2 + (2 * (y : ℤ) - 255) ^ 2)).toNat

/-- Blue channel of the converted normal map (lines 189-191):
`((np.sqrt(nz_squared) + 1.0) / 2.0 * 255).astype(np.uint8)`.  The cast
truncates, so the value is `⌊(√nz_squared + 1) / 2 * 255⌋ = ⌊(√n + 255) / 2⌋`
with `n = nz_squared_num`; `normal_z_eq_floor` proves this form equal to the
floor of the real-number expression. -/
def normal_z (x y : ℕ) : ℕ :=
  uint8cast ((Nat.sqrt (nz_squared_num x y) + 255) / 2)

/-- One output pixel of the converted normal map (lines 193-196): red and
green pass through, blue is the reconstructed Z. -/
def normalPixel (p : Pix4) : Pix3 :=
  { red := p.red
    green := p.green
    blue := normal_z p.red p.green }

/-- The whole-image normal-map pixel transform (`bedrock_normal`). -/
def normalToBedrock (img : Image4) : Image3 := img.map normalPixel

/-! ### Conversion statistics and the per-image converter calls -/

/-- The `conversion_stats` counter record (`__init__`, lines 39-45). -/
structure ConversionStats where
  specular_converted : ℕ
  normal_converted : ℕ
  mer_generated : ℕ
  texture_sets_created : ℕ
  errors : ℕ
deriving DecidableEq, Repr

/-- The counters as initialised by `__init__` / `reset_stats`. -/
def init_stats : ConversionStats :=
  { specular_converted := 0
    normal_converted := 0
    mer_generated := 0
    texture_sets_created := 0
    errors := 0 }

/-- `convert_specular_to_mer` (lines 103-162): on a decodable input it
writes the MER image, bumps `specular_converted` and `mer_generated` and
returns `True`; any exception (modelled: an undecodable input, `none`) is
caught, bumps `errors`, and the call returns `False`. -/
def convert_specular_to_mer (img : Option Image4) (stats : ConversionStats) :
    Bool × ConversionStats :=
  match img with
  | some _ =>
      (true, { stats with
                specular_converted := stats.specular_converted + 1
                mer_generated := stats.mer_generated + 1 })
  | none => (false, { stats with errors := stats.errors + 1 })

/-- `convert_normal_map` (lines 164-210): same shape as
`convert_specular_to_mer`, bumping `normal_converted` on success. -/
def convert_normal_map (img : Option Image4) (stats : ConversionStats) :
    Bool × ConversionStats :=
  match img with
  | some _ =>
      (true, { stats with normal_converted := stats.normal_converted + 1 })
  | none => (false, { stats with errors := stats.errors + 1 })

/-! ### Texture-set descriptor (`create_texture_set_json`) and batch loop -/

/-- The descriptor record written as `<base>.texture_set.json`
(lines 227-238). -/
structure TextureSetJson where
  format_version : String
  color : String
  metalness_emissive_roughness : Option String
  normal : Option String
deriving DecidableEq, Repr

/-- The record built by `create_texture_set_json` (lines 227-238): fixed
format version, `color` = the base name, and the two derived-map keys
present exactly when the corresponding flag is set. -/
def create_texture_set_json (texture_name : String)
    (has_mer has_normal : Bool) : TextureSetJson :=
  { format_version := "1.16.100"
    color := texture_name
    metalness_emissive_roughness :=
      if has_mer then some (texture_name ++ "_mer") else none
    normal :=
      if has_normal then some (texture_name ++ "_normal") else none }

/-- The descriptor-emission step of the batch loop (lines 317-319): the
descriptor is written only when at least one derived map was produced. -/
def emit_texture_set (texture_name : String)
    (has_mer has_normal : Bool) : Option TextureSetJson :=
  if has_mer || has_normal then
    some (create_texture_set_json texture_name has_mer has_normal)
  else none

/-- The components of one discovered texture set as consumed by the batch
loop: for each role, `none` if the set has no such file, `some none` if the
file exists but fails to decode, `some (some img)` if it decodes to `img`. -/
structure PBRSetInputs where
  specular : Option (Option Image4)
  normal : Option (Option Image4)
deriving DecidableEq, Repr

/-- One iteration of the batch loop of `convert_pbr_textures`
(lines 286-319): run the specular and normal converters when the set has
the corresponding file, then emit the descriptor (bumping
`texture_sets_created`) when either succeeded. -/
def process_pbr_set (stats : ConversionStats) (texture_name : String)
    (comps : PBRSetInputs) : ConversionStats × Option TextureSetJson :=
  let s1 := match comps.specular with
    | some imgOpt => convert_specular_to_mer imgOpt stats
    | none => (false, stats)
  let s2 := match comps.normal with
    | some imgOpt => convert_normal_map imgOpt s1.2
    | none => (false, s1.2)
  match emit_texture_set texture_name s1.1 s2.1 with
  | some json =>
      ({ s2.2 with texture_sets_created := s2.2.texture_sets_created + 1 },
        some json)
  | none => (s2.2, none)

/-- The batch loop of `convert_pbr_textures` (lines 286-319), threaded over
the converter's statistics record. -/
def convert_pbr_textures (sets : List (String × PBRSetInputs))
    (stats : ConversionStats) : ConversionStats :=
  sets.foldl (fun acc p => (process_pbr_set acc p.1 p.2).1) stats

/-! ### Texture-set discovery (`detect_pbr_textures`) -/

/-- A discovered texture set: role name to source file stem
(lines 79-92). -/
structure TextureSet where
  specular : Option (List Char) := none
  normal : Option (List Char) := none
  diffuse : Option (List Char) := none
deriving DecidableEq, Repr

/-- Python's `str.endswith`, on strings modelled as `List Char`. -/
def endswith (name suf : List Char) : Bool := decide (suf <:+ name)

/-- `name[:-2]`: the stem with its final two characters removed. -/
def base_of (name : List Char) : List Char := name.take (name.length - 2)

/-- The suffix list of line 89. -/
def pbr_suffixes : List (List Char) :=
  [['_', 's'], ['_', 'n'], ['_', 'e'], ['_', 'r'], ['_', 'm'],
    ['_', 'm', 'e', 'r'], ['_', 'n', 'o', 'r', 'm', 'a', 'l']]

/-- In-place update (or insertion-ordered creation) of a dict entry, as
`pbr_sets[base_name]` behaves in Python. -/
def updateRole (m : List (List Char × TextureSet)) (k : List Char)
    (f : TextureSet → TextureSet) : List (List Char × TextureSet) :=
  match m with
  | [] => [(k, f {})]
  | (k0, v) :: rest =>
      if k0 = k then (k0, f v) :: rest else (k0, v) :: updateRole rest k f

/-- The classification of one enumerated file stem (lines 74-92): `_s` sets
the `specular` role under the stripped stem, `_n` the `normal` role; stems
ending in none of the seven suffixes set `diffuse` under the full stem;
anything else is skipped. -/
def addFile (m : List (List Char × TextureSet)) (name : List Char) :
    List (List Char × TextureSet) :=
  if endswith name ['_', 's'] then
    updateRole m (base_of name) (fun ts => { ts with specular := some name })
  else if endswith name ['_', 'n'] then
    updateRole m (base_of name) (fun ts => { ts with normal := some name })
  else if !(pbr_suffixes.any (fun suf => endswith name suf)) then
    updateRole m name (fun ts => { ts with diffuse := some name })
  else m

/-- `detect_pbr_textures` (lines 58-101) on the enumerated file stems:
classify and merge every stem, then drop the sets having neither a
`specular` nor a `normal` entry (lines 94-95). -/
def detect_pbr_textures (files : List (List Char)) :
    List (List Char × TextureSet) :=
  (files.foldl addFile []).filter
    (fun p => p.2.specular.isSome || p.2.normal.isSome)

/-- An entry under key `b` whose role selected by `f` is populated. -/
def HasRole (f : TextureSet → Option (List Char))
    (m : List (List Char × TextureSet)) (b : List Char) : Prop :=
  ∃ ts, (b, ts) ∈ m ∧ (f ts).isSome = true

/-! ### Arithmetic bridge lemmas -/

lemma uint8cast_eq {n : ℕ} (h : n < 256) : uint8cast n = n := Nat.mod_eq_of_lt h

/-- The roughness value before the cast, `(1 - r/255)² · 255`, equals the
integer fraction `(255 - r)² / 255` for a byte input. -/
lemma roughness_linear_eq (r : ℕ) (h : r ≤ 255) :
    roughness_linear r * 255 = (((255 - r) ^ 2 : ℕ) : ℚ) / 255 := by
  have hc : ((255 - r : ℕ) : ℚ) = 255 - (r : ℚ) := by push_cast [h]; ring
  rw [roughness_linear, smoothness_normalized]
  push_cast [hc]
  field_simp
  ring

/-- The roughness channel as a natural-number division. -/
lemma roughness_bedrock_eq (r : ℕ) (h : r ≤ 255) :
    roughness_bedrock r = (255 - r) ^ 2 / 255 := by
  rw [roughness_bedrock, roughness_linear_eq r h,
    show (255 : ℚ) = ((255 : ℕ) : ℚ) by norm_num, Nat.floor_div_eq_div]
  refine uint8cast_eq ?_
  have h2 : (255 - r) ^ 2 ≤ 65025 := by
    have h3 : 255 - r ≤ 255 := by omega
    calc (255 - r) ^ 2 ≤ 255 ^ 2 := Nat.pow_le_pow_left h3 2
    _ = 65025 := by norm_num
  omega

/-- `nz_squared` over the common denominator `65025`. -/
lemma nz_squared_eq (x y : ℕ) :
    nz_squared x y = ((nz_squared_num x y : ℕ) : ℚ) / 65025 := by
  have key : (1 : ℚ) - (nx_normalized x ^ 2 + nx_normalized y ^ 2)
      = (((65025 : ℤ) - ((2 * (x : ℤ) - 255) ^ 2 + (2 * (y : ℤ) - 255) ^ 2) : ℤ) : ℚ)
        / 65025 := by
    rw [nx_normalized, nx_normalized]
    push_cast
    field_simp
    ring
  rw [nz_squared, key, nz_squared_num]
  set z : ℤ := (65025 : ℤ) - ((2 * (x : ℤ) - 255) ^ 2 + (2 * (y : ℤ) - 255) ^ 2) with hz
  rcases le_total z 0 with h | h
  · rw [Int.toNat_of_nonpos h]
    have hzq : ((z : ℚ)) / 65025 ≤ 0 :=
      div_nonpos_of_nonpos_of_nonneg (by exact_mod_cast h) (by norm_num)
    rw [max_eq_left hzq]
    norm_num
  · have hc : (((z.toNat : ℕ) : ℚ)) = (z : ℚ) := by
      rw [← Int.cast_natCast, Int.toNat_of_nonneg h]
    rw [hc, max_eq_right (div_nonneg (by exact_mod_cast h) (by norm_num))]

lemma nz_squared_num_le (x y : ℕ) : nz_squared_num x y ≤ 65025 := by
  rw [nz_squared_num]
  refine Int.toNat_le.mpr ?_
  push_cast
  have h1 : (0 : ℤ) ≤ (2 * (x : ℤ) - 255) ^ 2 := sq_nonneg _
  have h2 : (0 : ℤ) ≤ (2 * (y : ℤ) - 255) ^ 2 := sq_nonneg _
  linarith

lemma sqrt_nz_le (x y : ℕ) : Nat.sqrt (nz_squared_num x y) ≤ 255 := by
  calc Nat.sqrt (nz_squared_num x y) ≤ Nat.sqrt 65025 :=
        Nat.sqrt_le_sqrt (nz_squared_num_le x y)
  _ = 255 := by rw [show (65025 : ℕ) = 255 * 255 by norm_num, Nat.sqrt_eq]

/-- The executable `normal_z` equals the truncated real-number expression of
the source, `⌊(√nz_squared + 1) / 2 · 255⌋`. -/
lemma normal_z_eq_floor (x y : ℕ) :
    normal_z x y = ⌊((Real.sqrt (((nz_squared x y : ℚ)) : ℝ) + 1) / 2) * 255⌋₊ := by
  have hN : (((nz_squared x y : ℚ)) : ℝ) = ((nz_squared_num x y : ℕ) : ℝ) / 65025 := by
    rw [nz_squared_eq]; push_cast; ring
  rw [hN, Real.sqrt_div (by positivity) 65025,
    show (65025 : ℝ) = 255 ^ 2 by norm_num,
    Real.sqrt_sq (by norm_num : (0 : ℝ) ≤ 255),
    show ((Real.sqrt ((nz_squared_num x y : ℕ) : ℝ) / 255 + 1) / 2) * 255
      = (Real.sqrt ((nz_squared_num x y : ℕ) : ℝ) + 255) / 2 from by ring,
    Nat.floor_div_ofNat, Nat.floor_add_ofNat (Real.sqrt_nonneg _),
    Real.nat_floor_real_sqrt_eq_nat_sqrt, normal_z]
  refine uint8cast_eq ?_
  have := sqrt_nz_le x y
  omega

lemma normal_z_bounds (x y : ℕ) : 127 ≤ normal_z x y ∧ normal_z x y ≤ 255 := by
  have hle := sqrt_nz_le x y
  have hval : normal_z x y = (Nat.sqrt (nz_squared_num x y) + 255) / 2 := by
    rw [normal_z]
    exact uint8cast_eq (by omega)
  constructor
  · rw [hval]
    calc 127 = (0 + 255) / 2 := by norm_num
    _ ≤ (Nat.sqrt (nz_squared_num x y) + 255) / 2 :=
          Nat.div_le_div_right (by omega)
  · rw [hval]; omega

/-! ### Discovery lemmas -/

lemma endswith_iff {name suf : List Char} : endswith name suf = true ↔ suf <:+ name := by
  simp [endswith]

lemma suffix_eq_of_length {l s1 s2 : List Char} (h1 : s1 <:+ l) (h2 : s2 <:+ l)
    (h : s1.length = s2.length) : s1 = s2 := by
  obtain ⟨t1, rfl⟩ := h1
  obtain ⟨t2, ht⟩ := h2
  exact ((List.append_inj' ht h.symm).2).symm

lemma base_of_append (t suf : List Char) (hlen : suf.length = 2) :
    base_of (t ++ suf) = t := by
  rw [base_of, List.length_append, hlen, Nat.add_sub_cancel, List.take_left]

lemma name_eq_base_append {name suf : List Char} (h : suf <:+ name)
    (hlen : suf.length = 2) : name = base_of name ++ suf := by
  obtain ⟨t, rfl⟩ := h
  rw [base_of_append t suf hlen]

lemma hasRole_nil {f b} : HasRole f [] b ↔ False := by simp [HasRole]

lemma hasRole_cons {f : TextureSet → Option (List Char)} {k0 : List Char}
    {v : TextureSet} {tl : List (List Char × TextureSet)} {b : List Char} :
    HasRole f ((k0, v) :: tl) b
      ↔ (b = k0 ∧ (f v).isSome = true) ∨ HasRole f tl b := by
  constructor
  · rintro ⟨ts, hmem, hrole⟩
    rcases List.mem_cons.mp hmem with h | h
    · rw [Prod.mk.injEq] at h
      obtain ⟨h1, h2⟩ := h
      subst h1
      subst h2
      exact Or.inl ⟨rfl, hrole⟩
    · exact Or.inr ⟨ts, h, hrole⟩
  · rintro (⟨rfl, hrole⟩ | ⟨ts, hmem, hrole⟩)
    · exact ⟨v, List.mem_cons_self _ _, hrole⟩
    · exact ⟨ts, List.mem_cons_of_mem _ hmem, hrole⟩

lemma hasRole_updateRole_set (f : TextureSet → Option (List Char))
    (g : TextureSet → TextureSet) (hset : ∀ ts, (f (g ts)).isSome = true) :
    ∀ (m : List (List Char × TextureSet)) (k b : List Char),
      HasRole f (updateRole m k g) b ↔ HasRole f m b ∨ b = k := by
  intro m
  induction m with
  | nil =>
      intro k b
      rw [updateRole, hasRole_cons]
      simp [hset, hasRole_nil]
  | cons hd tl ih =>
      obtain ⟨k0, v⟩ := hd
      intro k b
      rw [updateRole]
      by_cases hk : k0 = k
      · subst hk
        rw [if_pos rfl, hasRole_cons, hasRole_cons]
        simp [hset]
        tauto
      · rw [if_neg hk, hasRole_cons, hasRole_cons, ih k b]
        tauto

lemma hasRole_updateRole_pre (f : TextureSet → Option (List Char))
    (g : TextureSet → TextureSet) (hpre : ∀ ts, f (g ts) = f ts)
    (hnil : f {} = none) :
    ∀ (m : List (List Char × TextureSet)) (k b : List Char),
      HasRole f (updateRole m k g) b ↔ HasRole f m b := by
  intro m
  induction m with
  | nil =>
      intro k b
      rw [updateRole, hasRole_cons]
      simp [hpre, hnil, hasRole_nil]
  | cons hd tl ih =>
      obtain ⟨k0, v⟩ := hd
      intro k b
      rw [updateRole]
      by_cases hk : k0 = k
      · subst hk
        rw [if_pos rfl, hasRole_cons, hasRole_cons, hpre]
      · rw [if_neg hk, hasRole_cons, hasRole_cons, ih k b]

lemma exists_mem_updateRole (g : TextureSet → TextureSet) :
    ∀ (m : List (List Char × TextureSet)) (k : List Char),
      ∃ ts0, (k, g ts0) ∈ updateRole m k g := by
  intro m
  induction m with
  | nil =>
      intro k
      exact ⟨{}, by rw [updateRole]; exact List.mem_cons_self _ _⟩
  | cons hd tl ih =>
      obtain ⟨k0, v⟩ := hd
      intro k
      rw [updateRole]
      by_cases hk : k0 = k
      · subst hk
        rw [if_pos rfl]
        exact ⟨v, List.mem_cons_self _ _⟩
      · rw [if_neg hk]
        obtain ⟨ts0, hts⟩ := ih k
        exact ⟨ts0, List.mem_cons_of_mem _ hts⟩

lemma hasRole_addFile_spec (m : List (List Char × TextureSet)) (name b : List Char) :
    HasRole TextureSet.specular (addFile m name) b
      ↔ HasRole TextureSet.specular m b ∨ name = b ++ ['_', 's'] := by
  rw [addFile]
  by_cases hs : endswith name ['_', 's'] = true
  · rw [if_pos hs,
      hasRole_updateRole_set TextureSet.specular
        (fun ts => { ts with specular := some name }) (fun ts => rfl)]
    have hb : (b = base_of name) ↔ (name = b ++ ['_', 's']) := by
      constructor
      · rintro rfl
        exact name_eq_base_append (endswith_iff.mp hs) rfl
      · intro he
        subst he
        rw [base_of_append b ['_', 's'] rfl]
    rw [hb]
  · rw [if_neg hs]
    have hne : ¬ (name = b ++ ['_', 's']) := by
      intro he
      exact hs (endswith_iff.mpr (he ▸ List.suffix_append b ['_', 's']))
    by_cases hn : endswith name ['_', 'n'] = true
    · rw [if_pos hn,
        hasRole_updateRole_pre TextureSet.specular
          (fun ts => { ts with normal := some name }) (fun ts => rfl) rfl]
      simp [hne]
    · rw [if_neg hn]
      by_cases ha : (pbr_suffixes.any fun suf => endswith name suf) = true
      · rw [if_neg (by simp [ha])]
        simp [hne]
      · rw [if_pos (by simp [Bool.not_eq_true] at ha ⊢; exact ha),
          hasRole_updateRole_pre TextureSet.specular
            (fun ts => { ts with diffuse := some name }) (fun ts => rfl) rfl]
        simp [hne]

lemma hasRole_addFile_norm (m : List (List Char × TextureSet)) (name b : List Char) :
    HasRole TextureSet.normal (addFile m name) b
      ↔ HasRole TextureSet.normal m b ∨ name = b ++ ['_', 'n'] := by
  rw [addFile]
  by_cases hs : endswith name ['_', 's'] = true
  · rw [if_pos hs,
      hasRole_updateRole_pre TextureSet.normal
        (fun ts => { ts with specular := some name }) (fun ts => rfl) rfl]
    have hne : ¬ (name = b ++ ['_', 'n']) := by
      intro he
      have h2 : ['_', 'n'] <:+ name := he ▸ List.suffix_append b ['_', 'n']
      have := suffix_eq_of_length (endswith_iff.mp hs) h2 rfl
      exact absurd this (by decide)
    simp [hne]
  · rw [if_neg hs]
    by_cases hn : endswith name ['_', 'n'] = true
    · rw [if_pos hn,
        hasRole_updateRole_set TextureSet.normal
          (fun ts => { ts with normal := some name }) (fun ts => rfl)]
      have hb : (b = base_of name) ↔ (name = b ++ ['_', 'n']) := by
        constructor
        · rintro rfl
          exact name_eq_base_append (endswith_iff.mp hn) rfl
        · intro he
          subst he
          rw [base_of_append b ['_', 'n'] rfl]
      rw [hb]
    · rw [if_neg hn]
      have hne : ¬ (name = b ++ ['_', 'n']) := by
        intro he
        exact hn (endswith_iff.mpr (he ▸ List.suffix_append b ['_', 'n']))
      by_cases ha : (pbr_suffixes.any fun suf => endswith name suf) = true
      · rw [if_neg (by simp [ha])]
        simp [hne]
      · rw [if_pos (by simp [Bool.not_eq_true] at ha ⊢; exact ha),
          hasRole_updateRole_pre TextureSet.normal
            (fun ts => { ts with diffuse := some name }) (fun ts => rfl) rfl]
        simp [hne]

lemma hasRole_foldl_spec (files : List (List Char)) :
    ∀ (m : List (List Char × TextureSet)) (b : List Char),
      HasRole TextureSet.specular (files.foldl addFile m) b
        ↔ HasRole TextureSet.specular m b ∨ (b ++ ['_', 's']) ∈ files := by
  induction files with
  | nil => intro m b; simp
  | cons name tl ih =>
      intro m b
      rw [List.foldl_cons, ih, hasRole_addFile_spec, List.mem_cons]
      constructor
      · rintro ((h | h) | h)
        · exact Or.inl h
        · exact Or.inr (Or.inl h.symm)
        · exact Or.inr (Or.inr h)
      · rintro (h | (h | h))
        · exact Or.inl (Or.inl h)
        · exact Or.inl (Or.inr h.symm)
        · exact Or.inr h

lemma hasRole_foldl_norm (files : List (List Char)) :
    ∀ (m : List (List Char × TextureSet)) (b : List Char),
      HasRole TextureSet.normal (files.foldl addFile m) b
        ↔ HasRole TextureSet.normal m b ∨ (b ++ ['_', 'n']) ∈ files := by
  induction files with
  | nil => intro m b; simp
  | cons name tl ih =>
      intro m b
      rw [List.foldl_cons, ih, hasRole_addFile_norm, List.mem_cons]
      constructor
      · rintro ((h | h) | h)
        · exact Or.inl h
        · exact Or.inr (Or.inl h.symm)
        · exact Or.inr (Or.inr h)
      · rintro (h | (h | h))
        · exact Or.inl (Or.inl h)
        · exact Or.inl (Or.inr h.symm)
        · exact Or.inr h

lemma mem_detect_iff (files : List (List Char)) (b : List Char) :
    (∃ ts, (b, ts) ∈ detect_pbr_textures files)
      ↔ (b ++ ['_', 's']) ∈ files ∨ (b ++ ['_', 'n']) ∈ files := by
  rw [detect_pbr_textures]
  constructor
  · rintro ⟨ts, hmem⟩
    obtain ⟨hmem2, hcond⟩ := List.mem_filter.mp hmem
    rw [Bool.or_eq_true] at hcond
    rcases hcond with h | h
    · have h1 : HasRole TextureSet.specular (files.foldl addFile []) b := ⟨ts, hmem2, h⟩
      rcases (hasRole_foldl_spec files [] b).mp h1 with h2 | h2
      · exact absurd h2 (by simp [hasRole_nil])
      · exact Or.inl h2
    · have h1 : HasRole TextureSet.normal (files.foldl addFile []) b := ⟨ts, hmem2, h⟩
      rcases (hasRole_foldl_norm files [] b).mp h1 with h2 | h2
      · exact absurd h2 (by simp [hasRole_nil])
      · exact Or.inr h2
  · intro h
    have hr : HasRole TextureSet.specular (files.foldl addFile []) b
        ∨ HasRole TextureSet.normal (files.foldl addFile []) b := by
      rcases h with h | h
      · exact Or.inl ((hasRole_foldl_spec files [] b).mpr (Or.inr h))
      · exact Or.inr ((hasRole_foldl_norm files [] b).mpr (Or.inr h))
    rcases hr with ⟨ts, hm, hrole⟩ | ⟨ts, hm, hrole⟩
    · exact ⟨ts, List.mem_filter.mpr ⟨hm, by simp [hrole]⟩⟩
    · exact ⟨ts, List.mem_filter.mpr ⟨hm, by simp [hrole]⟩⟩

lemma addFile_ignored (m : List (List Char × TextureSet)) (name : List Char)
    (h : ∃ suf ∈ ([['_', 'e'], ['_', 'r'], ['_', 'm'], ['_', 'm', 'e', 'r'],
        ['_', 'n', 'o', 'r', 'm', 'a', 'l']] : List (List Char)), suf <:+ name) :
    addFile m name = m := by
  obtain ⟨suf, hsufmem, hsuf⟩ := h
  have key : ∃ tail2 : List Char, tail2.length = 2 ∧ tail2 <:+ name
      ∧ tail2 ≠ ['_', 's'] ∧ tail2 ≠ ['_', 'n'] ∧ suf ∈ pbr_suffixes := by
    fin_cases hsufmem
    · exact ⟨['_', 'e'], rfl, hsuf, by decide, by decide, by decide⟩
    · exact ⟨['_', 'r'], rfl, hsuf, by decide, by decide, by decide⟩
    · exact ⟨['_', 'm'], rfl, hsuf, by decide, by decide, by decide⟩
    · exact ⟨['e', 'r'], rfl, List.IsSuffix.trans ⟨['_', 'm'], rfl⟩ hsuf,
        by decide, by decide, by decide⟩
    · exact ⟨['a', 'l'], rfl, List.IsSuffix.trans ⟨['_', 'n', 'o', 'r', 'm'], rfl⟩ hsuf,
        by decide, by decide, by decide⟩
  obtain ⟨tail2, hlen, htail, hts, htn, hmempbr⟩ := key
  have hs : ¬ (endswith name ['_', 's'] = true) := fun hcon =>
    hts (suffix_eq_of_length htail (endswith_iff.mp hcon) hlen)
  have hn : ¬ (endswith name ['_', 'n'] = true) := fun hcon =>
    htn (suffix_eq_of_length htail (endswith_iff.mp hcon) hlen)
  have hany : (pbr_suffixes.any fun suf => endswith name suf) = true :=
    List.any_eq_true.mpr ⟨suf, hmempbr, endswith_iff.mpr hsuf⟩
  rw [addFile, if_neg hs, if_neg hn, if_neg (by simp [hany])]

lemma addFile_diffuse (m : List (List Char × TextureSet)) (name : List Char)
    (h : ∀ suf ∈ pbr_suffixes, ¬ suf <:+ name) :
    ∃ ts, (name, ts) ∈ addFile m name ∧ ts.diffuse = some name := by
  have hs : ¬ (endswith name ['_', 's'] = true) := fun hcon =>
    h ['_', 's'] (by simp [pbr_suffixes]) (endswith_iff.mp hcon)
  have hn : ¬ (endswith name ['_', 'n'] = true) := fun hcon =>
    h ['_', 'n'] (by simp [pbr_suffixes]) (endswith_iff.mp hcon)
  have hany : (pbr_suffixes.any fun suf => endswith name suf) = false := by
    rw [List.any_eq_false]
    intro suf hmem
    exact fun hcon => h suf hmem (endswith_iff.mp hcon)
  rw [addFile, if_neg hs, if_neg hn, if_pos (by simp [hany])]
  obtain ⟨ts0, hts⟩ :=
    exists_mem_updateRole (fun ts => { ts with diffuse := some name }) m name
  exact ⟨_, hts, rfl⟩

/-! ### The claims -/

/-- C1 (amended): for every 4-channel input pixel of the normal-map
transcoder, the output Z (blue) channel equals
`⌊((nz + 1)/2) · 255⌋` (the `astype(np.uint8)` cast truncates rather than
rounds) where `nz = √(max 0 (1 - nx² - ny²))`; in particular the input
pixel X=255, Y=128 yields output Z exactly 127. -/
theorem c1_normal_z_truncates :
    (∀ p : Pix4, (normalPixel p).blue
        = ⌊((Real.sqrt (((nz_squared p.red p.green : ℚ)) : ℝ) + 1) / 2) * 255⌋₊)
    ∧ (normalPixel (Pix4.mk 255 128 0 0)).blue = 127 := by
  refine ⟨fun p => normal_z_eq_floor p.red p.green, ?_⟩
  decide

/-- C1, the claim as stated is false: at the input pixel X=255, Y=128 the
code produces Z = 127 while the claimed `round(((nz + 1)/2) · 255)` is 128. -/
theorem c1_round_counterexample :
    (normalPixel (Pix4.mk 255 128 0 0)).blue = 127
    ∧ round (((Real.sqrt (((nz_squared 255 128 : ℚ)) : ℝ) + 1) / 2) * 255) = 128
    ∧ (127 : ℕ) ≠ 128 := by
  refine ⟨by decide, ?_, by decide⟩
  have hnum : nz_squared_num 255 128 = 0 := by decide
  have h0 : (((nz_squared 255 128 : ℚ)) : ℝ) = 0 := by
    rw [nz_squared_eq, hnum]
    norm_num
  rw [h0, Real.sqrt_zero, round_eq, Int.floor_eq_iff]
  constructor <;> norm_num

/-- C2 (amended): for every input pixel of the Specular→MER transcoder with
byte smoothness value R, the output roughness (blue) channel equals
`⌊(1 - R/255)² · 255⌋` (the uint8 cast truncates rather than rounds);
consequently smoothness 255 maps to roughness 0 and smoothness 0 maps to
roughness 255. -/
theorem c2_roughness_truncates :
    (∀ p : Pix4, p.red ≤ 255 → (merPixel p).blue = ⌊roughness_linear p.red * 255⌋₊)
    ∧ roughness_bedrock 255 = 0 ∧ roughness_bedrock 0 = 255 := by
  refine ⟨fun p h => ?_, ?_, ?_⟩
  · show uint8cast ⌊roughness_linear p.red * 255⌋₊ = ⌊roughness_linear p.red * 255⌋₊
    refine uint8cast_eq ?_
    rw [roughness_linear_eq p.red h,
      show (255 : ℚ) = ((255 : ℕ) : ℚ) by norm_num, Nat.floor_div_eq_div]
    have h2 : (255 - p.red) ^ 2 ≤ 65025 := by
      have h3 : 255 - p.red ≤ 255 := by omega
      calc (255 - p.red) ^ 2 ≤ 255 ^ 2 := Nat.pow_le_pow_left h3 2
      _ = 65025 := by norm_num
    omega
  · rw [roughness_bedrock_eq 255 (by norm_num)]
    norm_num
  · rw [roughness_bedrock_eq 0 (by norm_num)]
    norm_num

/-- C2 witness: the theorem applied at the concrete pixel R=100. -/
theorem c2_witness :
    (Pix4.mk 100 0 0 0).red ≤ 255
    ∧ (merPixel (Pix4.mk 100 0 0 0)).blue
        = ⌊roughness_linear (Pix4.mk 100 0 0 0).red * 255⌋₊ :=
  ⟨by norm_num, c2_roughness_truncates.1 (Pix4.mk 100 0 0 0) (by norm_num)⟩

/-- C2, the claim as stated is false: at smoothness R=235 the code produces
roughness 1 while the claimed `round((1 - R/255)² · 255)` is 2. -/
theorem c2_round_counterexample :
    (merPixel (Pix4.mk 235 0 0 0)).blue = 1
    ∧ round (roughness_linear 235 * 255) = 2
    ∧ (1 : ℕ) ≠ 2 := by
  refine ⟨?_, ?_, by decide⟩
  · show roughness_bedrock 235 = 1
    rw [roughness_bedrock_eq 235 (by norm_num)]
    norm_num
  · rw [roughness_linear_eq 235 (by norm_num)]
    rw [round_eq, Int.floor_eq_iff]
    constructor <;> norm_num

/-- C3: the descriptor-emission step writes nothing when both flags are
false, and otherwise writes one record with format_version `1.16.100`,
color = the base name, and each derived-map key present (with value
base name + suffix) exactly when its flag is set. -/
theorem c3_descriptor_conditional :
    (∀ b : String, emit_texture_set b false false = none)
    ∧ (∀ (b : String) (hm hn : Bool), (hm || hn) = true →
        emit_texture_set b hm hn = some
          { format_version := "1.16.100"
            color := b
            metalness_emissive_roughness :=
              if hm then some (b ++ "_mer") else none
            normal := if hn then some (b ++ "_normal") else none }) := by
  refine ⟨fun b => rfl, fun b hm hn h => ?_⟩
  simp [emit_texture_set, create_texture_set_json, h]

/-- C3 witness: the theorem applied with has_mer = true, has_normal = false. -/
theorem c3_witness :
    ((true : Bool) || false) = true
    ∧ emit_texture_set ("stone") true false = some
        { format_version := "1.16.100"
          color := "stone"
          metalness_emissive_roughness :=
            if true then some ("stone" ++ "_mer") else none
          normal := if false then some ("stone" ++ "_normal") else none } :=
  ⟨by decide, c3_descriptor_conditional.2 ("stone") true false (by decide)⟩

/-- C4: the output metalness (red) channel is 255 for reflectance ≥ 230,
is the reflectance value itself strictly between 10 and 230, and is 0 at
or below 10. -/
theorem c4_metalness_ranges :
    ∀ p : Pix4,
      (230 ≤ p.green → (merPixel p).red = 255)
      ∧ (10 < p.green → p.green < 230 → (merPixel p).red = p.green)
      ∧ (p.green ≤ 10 → (merPixel p).red = 0) := by
  intro p
  refine ⟨fun h => ?_, fun h1 h2 => ?_, fun h => ?_⟩
  · show metalness p.green = 255
    rw [metalness, if_pos h]
  · show metalness p.green = p.green
    rw [metalness, if_neg (by omega), if_pos h1]
  · show metalness p.green = 0
    rw [metalness, if_neg (by omega), if_neg (by omega)]

/-- C4 witness: the theorem applied at reflectance 240, 100 and 5. -/
theorem c4_witness :
    (merPixel (Pix4.mk 0 240 0 0)).red = 255
    ∧ (merPixel (Pix4.mk 0 100 0 0)).red = 100
    ∧ (merPixel (Pix4.mk 0 5 0 0)).red = 0 :=
  ⟨(c4_metalness_ranges (Pix4.mk 0 240 0 0)).1 (by norm_num),
   (c4_metalness_ranges (Pix4.mk 0 100 0 0)).2.1 (by norm_num) (by norm_num),
   (c4_metalness_ranges (Pix4.mk 0 5 0 0)).2.2 (by norm_num)⟩

/-- C5: the output emissive (green) channel equals the input alpha when the
alpha is below 255, and is 0 when the alpha is exactly 255. -/
theorem c5_emission_sentinel :
    ∀ p : Pix4,
      (p.alpha < 255 → (merPixel p).green = p.alpha)
      ∧ (p.alpha = 255 → (merPixel p).green = 0) := by
  intro p
  refine ⟨fun h => ?_, fun h => ?_⟩
  · show emission_bedrock p.alpha = p.alpha
    rw [emission_bedrock, if_pos h]
  · show emission_bedrock p.alpha = 0
    rw [emission_bedrock, if_neg (by omega)]

/-- C5 witness: the theorem applied at alpha 200, 0 and 255. -/
theorem c5_witness :
    (merPixel (Pix4.mk 0 0 0 200)).green = 200
    ∧ (merPixel (Pix4.mk 0 0 0 0)).green = 0
    ∧ (merPixel (Pix4.mk 0 0 0 255)).green = 0 :=
  ⟨(c5_emission_sentinel (Pix4.mk 0 0 0 200)).1 (by norm_num),
   (c5_emission_sentinel (Pix4.mk 0 0 0 0)).1 (by norm_num),
   (c5_emission_sentinel (Pix4.mk 0 0 0 255)).2 rfl⟩

/-- C6: two 4-channel input images agreeing on the X (red) and Y (green)
channels of every pixel produce identical normal-map outputs — the AO
(blue) and height (alpha) input channels never influence the output. -/
theorem c6_ao_height_discard :
    ∀ img1 img2 : Image4,
      img1.map (fun p => (p.red, p.green)) = img2.map (fun p => (p.red, p.green)) →
      normalToBedrock img1 = normalToBedrock img2 := by
  have hrepr : ∀ img : Image4,
      normalToBedrock img = (img.map (fun p => (p.red, p.green))).map
        (fun q => Pix3.mk q.1 q.2 (normal_z q.1 q.2)) := by
    intro img
    rw [List.map_map]
    rfl
  intro img1 img2 h
  rw [hrepr img1, hrepr img2, h]

/-- C6 witness: the theorem applied to two one-pixel images differing only
in the AO and height channels. -/
theorem c6_witness :
    ([Pix4.mk 10 20 30 40] : Image4).map (fun p => (p.red, p.green))
      = ([Pix4.mk 10 20 99 7] : Image4).map (fun p => (p.red, p.green))
    ∧ normalToBedrock [Pix4.mk 10 20 30 40] = normalToBedrock [Pix4.mk 10 20 99 7] :=
  ⟨by decide, c6_ao_height_discard [Pix4.mk 10 20 30 40] [Pix4.mk 10 20 99 7] (by decide)⟩

/-- C8: an undecodable image never escapes the single-image call — the call
returns `false` and bumps only `errors` — and the concrete batch of three
texture sets with one corrupted specular file still converts the other two,
ending with `errors = 1` and `mer_generated = 2`. -/
theorem c8_error_isolation :
    (∀ stats : ConversionStats,
      convert_specular_to_mer none stats
        = (false, { stats with errors := stats.errors + 1 }))
    ∧ convert_pbr_textures
        [(("a"), PBRSetInputs.mk (some (some [Pix4.mk 0 0 0 0])) none),
         (("b"), PBRSetInputs.mk (some none) none),
         (("c"), PBRSetInputs.mk (some (some [Pix4.mk 0 0 0 0])) none)]
        init_stats
      = ConversionStats.mk 2 0 2 2 1 :=
  ⟨fun _ => rfl, by decide⟩

/-- C9: each single-image converter call either succeeds, bumping exactly
its own success counters by one with every other counter unchanged, or
fails, bumping exactly `errors` by one. -/
theorem c9_stats_frame :
    ∀ (img : Option Image4) (stats : ConversionStats),
      ((convert_specular_to_mer img stats).1 = true →
        (convert_specular_to_mer img stats).2
          = { stats with
                specular_converted := stats.specular_converted + 1
                mer_generated := stats.mer_generated + 1 })
      ∧ ((convert_specular_to_mer img stats).1 = false →
        (convert_specular_to_mer img stats).2
          = { stats with errors := stats.errors + 1 })
      ∧ ((convert_normal_map img stats).1 = true →
        (convert_normal_map img stats).2
          = { stats with normal_converted := stats.normal_converted + 1 })
      ∧ ((convert_normal_map img stats).1 = false →
        (convert_normal_map img stats).2
          = { stats with errors := stats.errors + 1 }) := by
  intro img stats
  cases img <;>
    refine ⟨fun h => ?_, fun h => ?_, fun h => ?_, fun h => ?_⟩ <;>
    first
      | rfl
      | simp [convert_specular_to_mer, convert_normal_map] at h

/-- C9 witness: the theorem applied at a failing and a succeeding call. -/
theorem c9_witness :
    (convert_specular_to_mer none init_stats).2
      = { init_stats with errors := init_stats.errors + 1 }
    ∧ (convert_normal_map (some [Pix4.mk 0 0 0 0]) init_stats).2
      = { init_stats with normal_converted := init_stats.normal_converted + 1 } :=
  ⟨(c9_stats_frame none init_stats).2.1 (by decide),
   (c9_stats_frame (some [Pix4.mk 0 0 0 0]) init_stats).2.2.1 (by decide)⟩

/-- C10: every pixel the normal-map transcoder outputs has its Z (blue)
channel within `[127, 255]` — the encoded normal always lies in the
outward-facing hemisphere. -/
theorem c10_z_hemisphere :
    ∀ (img : Image4) (p : Pix3), p ∈ normalToBedrock img →
      127 ≤ p.blue ∧ p.blue ≤ 255 := by
  intro img p hp
  rw [normalToBedrock] at hp
  obtain ⟨q, _, rfl⟩ := List.mem_map.mp hp
  exact normal_z_bounds q.red q.green

/-- C10 witness: the theorem applied to the output of the one-pixel image
X=128, Y=128, whose Z channel is 254. -/
theorem c10_witness :
    Pix3.mk 128 128 254 ∈ normalToBedrock [Pix4.mk 128 128 0 0]
    ∧ 127 ≤ (Pix3.mk 128 128 254).blue ∧ (Pix3.mk 128 128 254).blue ≤ 255 := by
  have hsq : nz_squared_num 128 128 = 65023 := by
    have h : (65025 : ℤ) - ((2 * ((128 : ℕ) : ℤ) - 255) ^ 2 + (2 * ((128 : ℕ) : ℤ) - 255) ^ 2)
        = 65023 := by norm_num
    rw [nz_squared_num, h]
    simp
  have hs1 : Nat.sqrt 65023 = 254 := by norm_num
  have hz : normal_z 128 128 = 254 := by
    rw [normal_z, hsq, uint8cast, hs1]
  have hmem : Pix3.mk 128 128 254 ∈ normalToBedrock [Pix4.mk 128 128 0 0] := by
    simp [normalToBedrock, normalPixel, hz]
  exact ⟨hmem, c10_z_hemisphere [Pix4.mk 128 128 0 0] (Pix3.mk 128 128 254) hmem⟩

/-- C7: discovery classifies stems by suffix — a stem `b ++ "_s"` yields a
specular entry and a stem `b ++ "_n"` a normal entry under base name `b`,
stems ending in `_e`, `_r`, `_m`, `_mer`, `_normal` contribute nothing, any
other stem contributes a diffuse entry under the full stem — and the
returned mapping contains exactly the base names with a specular or a
normal entry. -/
theorem c7_discovery_classification :
    (∀ (files : List (List Char)) (b : List Char),
        (∃ ts, (b, ts) ∈ detect_pbr_textures files)
          ↔ (b ++ ['_', 's']) ∈ files ∨ (b ++ ['_', 'n']) ∈ files)
    ∧ (∀ (m : List (List Char × TextureSet)) (name : List Char),
        (∃ suf ∈ ([['_', 'e'], ['_', 'r'], ['_', 'm'], ['_', 'm', 'e', 'r'],
            ['_', 'n', 'o', 'r', 'm', 'a', 'l']] : List (List Char)), suf <:+ name) →
        addFile m name = m)
    ∧ (∀ (m : List (List Char × TextureSet)) (name : List Char),
        (∀ suf ∈ pbr_suffixes, ¬ suf <:+ name) →
        ∃ ts, (name, ts) ∈ addFile m name ∧ ts.diffuse = some name) :=
  ⟨mem_detect_iff, addFile_ignored, addFile_diffuse⟩

/-- C7 witness: the theorem applied to a concrete directory listing and to
concrete ignored and diffuse stems. -/
theorem c7_witness :
    (∃ ts, (['a'], ts) ∈ detect_pbr_textures [['a', '_', 's'], ['d'], ['x', '_', 'm', 'e', 'r']])
    ∧ addFile [] ['x', '_', 'm', 'e', 'r'] = []
    ∧ (∃ ts, (['d'], ts) ∈ addFile [] ['d'] ∧ ts.diffuse = some ['d']) :=
  ⟨(c7_discovery_classification.1 _ ['a']).mpr (Or.inl (by decide)),
   c7_discovery_classification.2.1 [] ['x', '_', 'm', 'e', 'r']
     ⟨['_', 'm', 'e', 'r'], by decide, by decide⟩,
   c7_discovery_classification.2.2 [] ['d'] (by decide)⟩

end JE2BE
